import Mathlib

/-!
Shallow embedding of the Wine-Project Flask application (src/app.py and
src/model.py) and its single-slot background-job coordinator.

The coordinator state is modelled explicitly: futures are identified by
allocation order (a `Nat` index into a list of future states), the slot
`app.future` is an `Option Nat`, and the single-worker executor of
`concurrent.futures.ThreadPoolExecutor(max_workers=1)` is a FIFO queue of
pending future ids together with the rule that at most one future executes
at a time.  Concurrent requests are modelled by a small-step transition
relation `Step` whose atomic actions are exactly the lock-protected
critical sections of the Python code.
-/

set_option autoImplicit false

namespace WineApp

/-- Outcome of one completed future: `run_model` returned a string, or it
raised an exception whose message is a string (re-raised by `_wrap`,
src/app.py lines 54-61, and stored in the future). -/
inductive Outcome where
  | ok (s : String)
  | err (s : String)
deriving DecidableEq, Repr

/-- State of one `concurrent.futures.Future`: pending (submitted, worker has
not started it), running (worker is executing it), or done with an outcome. -/
inductive FutState where
  | pending
  | running
  | done (o : Outcome)
deriving DecidableEq, Repr

/-- Python's `Future.done()`. -/
def futDone : FutState → Bool
  | .done _ => true
  | _ => false

/-- Python's `Future.running()`. -/
def futRunning : FutState → Bool
  | .running => true
  | _ => false

/-- The shared state of the application: the futures created so far (index =
allocation order), the slot `app.future` (src/app.py line 38), the executor's
FIFO queue of submitted-but-not-started future ids, and whether a model with
a `run_model` attribute is configured (`app.model` truthy and
`hasattr(app.model, 'run_model')`, src/app.py lines 30-35 and 52). -/
structure AppState where
  futures : List FutState
  slot : Option Nat
  queue : List Nat
  model : Bool
deriving DecidableEq, Repr

/-- State of future `f` (`none` if no future with that id was allocated). -/
def AppState.stateOf (s : AppState) (f : Nat) : Option FutState :=
  s.futures[f]?

/-- Fresh-state submission inside `_submit_model` (src/app.py lines 52-67):
if a model is configured, submit `_wrap` to the single-worker executor and
store the new future in the slot; otherwise store an already-completed
future whose result is the string `'No model available'` without touching
the executor. Returns the new state and the id of the stored future. -/
def newSubmit (s : AppState) : AppState × Nat :=
  let fid := s.futures.length
  if s.model then
    ({ s with futures := s.futures ++ [.pending]
            , slot := some fid
            , queue := s.queue ++ [fid] }, fid)
  else
    ({ s with futures := s.futures ++ [.done (.ok "No model available")]
            , slot := some fid }, fid)

/-- The whole body of `_submit_model` (src/app.py lines 49-68), which runs
under `app.future_lock`: if `app.future is None or app.future.done()`,
submit new work as in `newSubmit`; otherwise leave the state unchanged.
Either way return (the new state and) the slot's future. -/
def submitOrGet (s : AppState) : AppState × Nat :=
  match s.slot with
  | none => newSubmit s
  | some f =>
      if futDone ((s.stateOf f).getD .pending) then newSubmit s
      else (s, f)

/-- The single worker of the `max_workers=1` executor picking up the head of
its queue: only possible when no future is currently executing. -/
def workerStart (s : AppState) : AppState :=
  match s.queue with
  | [] => s
  | f :: rest =>
      if s.futures.any futRunning then s
      else { s with futures := s.futures.set f .running, queue := rest }

/-- The worker finishing the execution of future `f` with outcome `o`.
`_wrap` (src/app.py lines 54-61) returns `run_model()`'s result on success
and re-raises the exception on failure, so the future ends `done (ok r)` or
`done (err m)`; the exception never escapes the worker thread. -/
def workerFinish (s : AppState) (f : Nat) (o : Outcome) : AppState :=
  { s with futures := s.futures.set f (.done o) }

/-- The output string `home` renders for the state it observes on its future
(src/app.py lines 73-84): `running()` first, then `done()` (result or
`'Model error: '` + message), else the fallback message. -/
def homeRender : FutState → String
  | .running => "Model is running (background). Refresh to see result."
  | .done (.ok r) => r
  | .done (.err m) => "Model error: " ++ m
  | .pending => "Model started (background). Refresh to see result."

/-- The part of `home` (src/app.py lines 72-85) after `_submit_model`
returned the future `f` to this request thread: inspect `f`'s state; when it
is done, capture the outcome and unconditionally set `app.future = None`
under the lock (lines 80-82) — without re-checking that the slot still holds
`f`. Returns the new state and the rendered output string. -/
def homeAfterSubmit (s : AppState) (f : Nat) : AppState × String :=
  match s.stateOf f with
  | some .running => (s, homeRender .running)
  | some (.done o) => ({ s with slot := none }, homeRender (.done o))
  | _ => (s, homeRender .pending)

/-- The `/status` route body (src/app.py lines 91-111), a pure read under
the lock: it produces the pair (state string, result) serialized as JSON,
with `result = None` encoded as `none`. Branch order as in the code:
`is None`, then `running()`, then `done()`, else the `'unknown'` fallback. -/
def statusPayload (s : AppState) : String × Option String :=
  match s.slot with
  | none => ("idle", none)
  | some f =>
      match s.stateOf f with
      | some .running => ("running", none)
      | some (.done (.ok r)) => ("done", some r)
      | some (.done (.err m)) => ("done", some ("error: " ++ m))
      | _ => ("unknown", none)

/-- One `/status` request: it reads the state and changes nothing. -/
def statusStep (s : AppState) : AppState × (String × Option String) :=
  (s, statusPayload s)

/-- `n` consecutive `/status` requests, collecting the returned payloads. -/
def pollStatus : Nat → AppState → AppState × List (String × Option String)
  | 0, s => (s, [])
  | n + 1, s =>
      let p := statusStep s
      let r := pollStatus n p.1
      (r.1, p.2 :: r.2)

/-- The status mapping as the (amended) specification states it: empty slot
is idle, a running handle is running, a completed handle is done with the
result string or `'error: '` + message, and a pending handle falls to the
`'unknown'` fallback. -/
def claimedStatus (s : AppState) : String × Option String :=
  match s.slot with
  | none => ("idle", none)
  | some f =>
      match s.stateOf f with
      | some .pending => ("unknown", none)
      | some .running => ("running", none)
      | some (.done (.ok r)) => ("done", some r)
      | some (.done (.err m)) => ("done", some ("error: " ++ m))
      | none => ("unknown", none)

/-- The state of a freshly created app (src/app.py lines 36-38): no futures,
empty slot, empty executor queue; `m` records whether a usable model was
imported. -/
def initState (m : Bool) : AppState :=
  { futures := [], slot := none, queue := [], model := m }

/-- One atomic action of the system. Each constructor is one lock-protected
critical section (or one worker-thread transition) of src/app.py; request
threads interleave freely between them. -/
inductive Step : AppState → AppState → Prop where
  | submit (s s' : AppState) (h : s' = (submitOrGet s).1) : Step s s'
  | start (s s' : AppState) (h : s' = workerStart s) : Step s s'
  | finish (s s' : AppState) (f : Nat) (o : Outcome)
      (hr : s.stateOf f = some .running) (h : s' = workerFinish s f o) :
      Step s s'
  | clear (s s' : AppState) (f : Nat) (o : Outcome)
      (hd : s.stateOf f = some (.done o)) (h : s' = { s with slot := none }) :
      Step s s'
  | poll (s : AppState) : Step s s

/-- Reachable states: anything the system can be in after any interleaving
of requests and worker transitions from a freshly created app. -/
inductive Reach : AppState → Prop where
  | init (m : Bool) : Reach (initState m)
  | step {s s' : AppState} : Reach s → Step s s' → Reach s'

/-- Zero or more atomic actions. -/
def Steps : AppState → AppState → Prop :=
  Relation.ReflTransGen Step

/-- Number of futures currently executing on the worker. -/
def runningCount (s : AppState) : Nat :=
  s.futures.countP (fun fs => futRunning fs)

/-- The reachability invariant of the coordinator: every queued future is
still pending, the queue has no duplicates, every slot id is allocated, and
without a configured model nothing is ever queued and every future is the
completed `'No model available'` one. -/
def Inv (s : AppState) : Prop :=
  (∀ f ∈ s.queue, s.stateOf f = some .pending) ∧
  s.queue.Nodup ∧
  (∀ f, s.slot = some f → f < s.futures.length) ∧
  (s.model = false → s.queue = [] ∧
    ∀ fs ∈ s.futures, fs = .done (.ok "No model available"))

/-- Run-time error relevant to `create_app`: Python raises
`UnboundLocalError` when a function reads a local variable before it has
been assigned. -/
inductive PyError where
  | unboundLocal (name : String)
deriving DecidableEq, Repr

/-- One Python statement abstracted to the local names it reads and the
names it binds, in source order. -/
structure PyStmt where
  reads : List String
  binds : List String
deriving DecidableEq, Repr

/-- The statements of the body of `create_app` (src/app.py lines 10-113) in
source order, abstracted to the names read and bound. The decorator
`@app.errorhandler(Exception)` on line 12 evaluates `app.errorhandler`
first, i.e. it reads the name `app` before the assignment `app = Flask(...)`
on line 24. -/
def createAppBody : List PyStmt :=
  [ ⟨["app"], ["handle_exception"]⟩              -- lines 12-18: decorated def
  , ⟨[], ["app"]⟩                                -- line 24: app = Flask(...)
  , ⟨["config", "app"], []⟩                      -- lines 26-27: if config: ...
  , ⟨[], ["model"]⟩                              -- lines 30-33: try import model
  , ⟨["app", "model"], []⟩                       -- line 35: app.model = model
  , ⟨["app"], []⟩                                -- line 36: app.executor = ...
  , ⟨["app"], []⟩                                -- line 37: app.future_lock = ...
  , ⟨["app"], []⟩                                -- line 38: app.future = None
  , ⟨[], ["logs_dir"]⟩                           -- line 41: logs_dir = ...
  , ⟨["logs_dir"], []⟩                           -- line 42: os.makedirs(...)
  , ⟨["logs_dir"], ["log_file"]⟩                 -- line 43: log_file = ...
  , ⟨["log_file"], ["handler"]⟩                  -- line 44: handler = ...
  , ⟨["handler"], []⟩                            -- line 45: handler.setFormatter
  , ⟨["app", "handler"], []⟩                     -- line 46: addHandler
  , ⟨["app"], []⟩                                -- line 47: setLevel
  , ⟨["app"], ["_submit_model"]⟩                 -- lines 49-68: def _submit_model
  , ⟨["app", "_submit_model"], ["home"]⟩         -- lines 70-85: @app.route def home
  , ⟨["app"], ["ping"]⟩                          -- lines 87-89: def ping
  , ⟨["app"], ["status"]⟩                        -- lines 91-111: def status
  , ⟨["app"], []⟩ ]                              -- line 113: return app

/-- Names bound somewhere in a function body: Python treats every such name
as local throughout the whole body. -/
def localsOf (body : List PyStmt) : List String :=
  body.foldr (fun st acc => st.binds ++ acc) []

/-- Execute a body under Python's local-variable rule: a statement that
reads a local name not yet in the environment raises `UnboundLocalError`;
otherwise its bindings are added and execution continues. -/
def runBody (locals : List String) : List PyStmt → List String →
    Except PyError (List String)
  | [], env => .ok env
  | st :: rest, env =>
      match st.reads.find? (fun n => locals.contains n && !env.contains n) with
      | some n => .error (.unboundLocal n)
      | none => runBody locals rest (env ++ st.binds)

/-- `create_app(config)` (src/app.py line 10): the parameter `config` is
bound on entry; the body then executes under Python local-name semantics.
Returns the final local environment, or the error the call raises. -/
def createApp (config : Option (List (String × String))) :
    Except PyError (List String) :=
  match config with
  | _ => runBody ("config" :: localsOf createAppBody) createAppBody ["config"]

/-- The module-level statement `app = create_app()` (src/app.py line 117),
executed when the module is imported. -/
def moduleLevelApp : Except PyError (List String) :=
  createApp none

/-- Intermediate state: one future submitted and still pending on the
executor queue (reachable from `initState true` by one submit). -/
def st1 : AppState :=
  { futures := [.pending], slot := some 0, queue := [0], model := true }

/-- Intermediate state: the worker picked the future up (st1 after
`workerStart`). -/
def st2 : AppState :=
  { futures := [.running], slot := some 0, queue := [], model := true }

/-- Intermediate state: the first run finished with result `"r1"`. -/
def st3 : AppState :=
  { futures := [.done (.ok "r1")], slot := some 0, queue := [], model := true }

/-- Intermediate state: a second request's `_submit_model` saw the done
future and dispatched a fresh run (st3 after one submit). -/
def st4 : AppState :=
  { futures := [.done (.ok "r1"), .pending], slot := some 1, queue := [1]
  , model := true }

/-- Intermediate state: the worker is executing the second run while the
slot holds its future (st4 after `workerStart`). -/
def st5 : AppState :=
  { futures := [.done (.ok "r1"), .running], slot := some 1, queue := []
  , model := true }

/-! ### Helper lemmas -/

theorem countP_set_le {α : Type} (p : α → Bool) (l : List α) (i : Nat) (a : α) :
    (l.set i a).countP p ≤ l.countP p + 1 := by
  induction l generalizing i with
  | nil => simp [List.countP_nil]
  | cons b t ih =>
      cases i with
      | zero =>
          simp only [List.set_cons_zero, List.countP_cons]
          split_ifs <;> omega
      | succ j =>
          simp only [List.set_cons_succ, List.countP_cons]
          have := ih j
          omega

theorem countP_set_le_of_neg {α : Type} (p : α → Bool) (l : List α) (i : Nat)
    (a : α) (ha : p a = false) :
    (l.set i a).countP p ≤ l.countP p := by
  induction l generalizing i with
  | nil => simp
  | cons b t ih =>
      cases i with
      | zero => simp [List.countP_cons, ha]
      | succ j =>
          simp only [List.set_cons_succ, List.countP_cons]
          have := ih j
          omega

theorem nodup_append_singleton {α : Type} {l : List α} {a : α}
    (hn : l.Nodup) (ha : a ∉ l) : (l ++ [a]).Nodup := by
  induction l with
  | nil => simp
  | cons b t ih =>
      rcases List.nodup_cons.mp hn with ⟨hb, ht⟩
      have ha' : a ∉ t := fun h => ha (List.mem_cons_of_mem _ h)
      have hab : b ≠ a := fun h => ha (h ▸ List.mem_cons_self _ _)
      refine List.nodup_cons.mpr ⟨?_, ih ht ha'⟩
      intro hmem
      rcases List.mem_append.mp hmem with h | h
      · exact hb h
      · exact hab (List.mem_singleton.mp h)

theorem stateOf_lt_length {s : AppState} {f : Nat} {fs : FutState}
    (h : s.stateOf f = some fs) : f < s.futures.length := by
  unfold AppState.stateOf at h
  exact (List.getElem?_eq_some.mp h).1

theorem stateOf_append {s : AppState} {f : Nat} {fs : FutState} (a : FutState)
    (h : s.stateOf f = some fs) :
    (s.futures ++ [a])[f]? = some fs := by
  have hlt := stateOf_lt_length h
  rw [List.getElem?_append_left hlt]
  exact h

theorem stateOf_set_ne {l : List FutState} {f g : Nat} (a : FutState)
    (h : g ≠ f) : (l.set g a)[f]? = l[f]? :=
  List.getElem?_set_ne h

theorem stateOf_slot_irrel (s : AppState) (f : Nat) :
    ({ s with slot := none } : AppState).stateOf f = s.stateOf f := rfl

theorem inv_initState (m : Bool) : Inv (initState m) := by
  refine ⟨?_, ?_, ?_, ?_⟩ <;> simp [initState, Inv]

theorem inv_newSubmit {s : AppState} (hs : Inv s) : Inv (newSubmit s).1 := by
  obtain ⟨hq, hnd, hslot, hnm⟩ := hs
  unfold newSubmit
  cases hm : s.model with
  | true =>
      simp only [hm, if_pos]
      refine ⟨?_, ?_, ?_, ?_⟩
      · intro g hg
        rcases List.mem_append.mp hg with h | h
        · exact stateOf_append _ (hq g h)
        · have hg' : g = s.futures.length := List.mem_singleton.mp h
          subst hg'
          exact List.getElem?_concat_length _ _
      · refine nodup_append_singleton hnd ?_
        intro hmem
        exact absurd (stateOf_lt_length (hq _ hmem)) (Nat.lt_irrefl _)
      · intro g hg
        simp only [Option.some.injEq] at hg
        subst hg
        simp
      · intro h
        simp [hm] at h
  | false =>
      simp only [hm, if_neg, Bool.false_eq_true, not_false_iff]
      refine ⟨?_, hnd, ?_, ?_⟩
      · intro g hg
        exact stateOf_append _ (hq g hg)
      · intro g hg
        simp only [Option.some.injEq] at hg
        subst hg
        simp
      · intro _
        refine ⟨(hnm hm).1, ?_⟩
        intro fs hfs
        rcases List.mem_append.mp hfs with h | h
        · exact (hnm hm).2 fs h
        · exact List.mem_singleton.mp h

theorem inv_submitOrGet {s : AppState} (hs : Inv s) : Inv (submitOrGet s).1 := by
  unfold submitOrGet
  cases hsl : s.slot with
  | none => exact inv_newSubmit hs
  | some f =>
      by_cases hd : futDone ((s.stateOf f).getD .pending)
      · simp only [hd, if_pos]
        exact inv_newSubmit hs
      · simp only [hd]
        simpa using hs

theorem inv_workerStart {s : AppState} (hs : Inv s) : Inv (workerStart s) := by
  obtain ⟨hq, hnd, hslot, hnm⟩ := hs
  unfold workerStart
  cases hqe : s.queue with
  | nil => exact ⟨by simp [hqe] at hq ⊢, by simp [hqe], hslot, by
      intro h; exact ⟨by simp [hqe], (hnm h).2⟩⟩
  | cons f rest =>
      by_cases hrun : s.futures.any futRunning
      · simp only [hrun, if_pos]
        exact ⟨hqe ▸ hq, hqe ▸ hnd, hslot, hnm⟩
      · simp only [hrun, Bool.false_eq_true, if_neg, not_false_iff]
        have hfin : f ∉ rest := by
          have := hqe ▸ hnd
          exact (List.nodup_cons.mp this).1
        have hrnd : rest.Nodup := by
          have := hqe ▸ hnd
          exact (List.nodup_cons.mp this).2
        refine ⟨?_, hrnd, ?_, ?_⟩
        · intro g hg
          have hgq : g ∈ s.queue := by rw [hqe]; exact List.mem_cons_of_mem _ hg
          have hgf : g ≠ f := fun h => hfin (h ▸ hg)
          show (s.futures.set f .running)[g]? = some .pending
          rw [stateOf_set_ne _ (Ne.symm hgf)]
          exact hq g hgq
        · intro g hg
          simp only [List.length_set]
          exact hslot g hg
        · intro h
          exact absurd hqe (by rw [(hnm h).1]; exact fun hc => List.noConfusion hc)

theorem inv_workerFinish {s : AppState} {f : Nat} {o : Outcome} (hs : Inv s)
    (hr : s.stateOf f = some .running) : Inv (workerFinish s f o) := by
  obtain ⟨hq, hnd, hslot, hnm⟩ := hs
  unfold workerFinish
  refine ⟨?_, hnd, ?_, ?_⟩
  · intro g hg
    have hgf : g ≠ f := by
      intro h
      subst h
      rw [hq g hg] at hr
      exact FutState.noConfusion (Option.some.injEq _ _ ▸ hr)
    show (s.futures.set f (.done o))[g]? = some .pending
    rw [stateOf_set_ne _ (Ne.symm hgf)]
    exact hq g hg
  · intro g hg
    simp only [List.length_set]
    exact hslot g hg
  · intro h
    obtain ⟨hlt, hval⟩ := List.getElem?_eq_some.mp hr
    have hmem : s.futures[f] ∈ s.futures := List.getElem_mem hlt
    have := (hnm h).2 _ hmem
    rw [hval] at this
    exact FutState.noConfusion this

theorem inv_step {s s' : AppState} (hs : Inv s) (hstep : Step s s') : Inv s' := by
  cases hstep with
  | submit _ h => exact h ▸ inv_submitOrGet hs
  | start _ h => exact h ▸ inv_workerStart hs
  | finish _ f o hr h => exact h ▸ inv_workerFinish hs hr
  | clear _ f o hd h =>
      obtain ⟨hq, hnd, hslot, hnm⟩ := hs
      subst h
      exact ⟨hq, hnd, by intro g hg; exact Option.noConfusion hg,
        fun hm => ⟨(hnm hm).1, (hnm hm).2⟩⟩
  | poll => exact hs

theorem reach_inv {s : AppState} (h : Reach s) : Inv s := by
  induction h with
  | init m => exact inv_initState m
  | step _ hstep ih => exact inv_step ih hstep

theorem runningCount_newSubmit (s : AppState) :
    runningCount (newSubmit s).1 = runningCount s := by
  unfold newSubmit runningCount
  cases s.model <;> simp [List.countP_append, List.countP_cons, futRunning]

theorem runningCount_step {s s' : AppState} (h : Step s s')
    (hs : runningCount s ≤ 1) : runningCount s' ≤ 1 := by
  cases h with
  | submit _ h =>
      subst h
      unfold submitOrGet
      cases hsl : s.slot with
      | none => rw [runningCount_newSubmit]; exact hs
      | some f =>
          by_cases hd : futDone ((s.stateOf f).getD .pending)
          · simp only [hd, if_pos]
            rw [runningCount_newSubmit]; exact hs
          · simpa [hd] using hs
  | start _ h =>
      subst h
      unfold workerStart
      cases hqe : s.queue with
      | nil => exact hs
      | cons f rest =>
          by_cases hrun : s.futures.any futRunning
          · simp only [hrun, if_pos]; exact hs
          · simp only [hrun, Bool.false_eq_true, if_neg, not_false_iff]
            have hz : s.futures.countP (fun fs => futRunning fs) = 0 := by
              rw [List.countP_eq_zero]
              intro a ha
              exact fun hpa => (List.any_eq_false.mp
                (Bool.not_eq_true _ ▸ Bool.eq_false_iff.mpr hrun) a ha) hpa
            show (s.futures.set f .running).countP (fun fs => futRunning fs) ≤ 1
            calc (s.futures.set f .running).countP (fun fs => futRunning fs)
                ≤ s.futures.countP (fun fs => futRunning fs) + 1 :=
                  countP_set_le _ _ _ _
              _ = 1 := by rw [hz]
  | finish _ f o hr h =>
      subst h
      unfold workerFinish
      show (s.futures.set f (.done o)).countP (fun fs => futRunning fs) ≤ 1
      calc (s.futures.set f (.done o)).countP (fun fs => futRunning fs)
          ≤ s.futures.countP (fun fs => futRunning fs) :=
            countP_set_le_of_neg _ _ _ _ rfl
        _ ≤ 1 := hs
  | clear _ f o hd h => subst h; exact hs
  | poll => exact hs

theorem stateOf_newSubmit {s : AppState} {f : Nat} {fs : FutState}
    (h : s.stateOf f = some fs) : (newSubmit s).1.stateOf f = some fs := by
  unfold newSubmit
  cases s.model <;> exact stateOf_append _ h

theorem step_preserves_done {s s' : AppState} {f : Nat} {o : Outcome}
    (hinv : Inv s) (hstep : Step s s')
    (hd : s.stateOf f = some (.done o)) : s'.stateOf f = some (.done o) := by
  cases hstep with
  | submit _ h =>
      subst h
      unfold submitOrGet
      cases hsl : s.slot with
      | none => exact stateOf_newSubmit hd
      | some g =>
          by_cases hg : futDone ((s.stateOf g).getD .pending)
          · simp only [hg, if_pos]
            exact stateOf_newSubmit hd
          · simpa [hg] using hd
  | start _ h =>
      subst h
      unfold workerStart
      cases hqe : s.queue with
      | nil => exact hd
      | cons g rest =>
          by_cases hrun : s.futures.any futRunning
          · simp only [hrun, if_pos]; exact hd
          · simp only [hrun, Bool.false_eq_true, if_neg, not_false_iff]
            have hgq : g ∈ s.queue := by rw [hqe]; exact List.mem_cons_self _ _
            have hgp : s.stateOf g = some .pending := hinv.1 g hgq
            have hgf : g ≠ f := by
              intro h
              rw [h, hd] at hgp
              exact FutState.noConfusion (Option.some.injEq _ _ ▸ hgp)
            show (s.futures.set g .running)[f]? = some (.done o)
            rw [stateOf_set_ne _ hgf]
            exact hd
  | finish _ g o' hr h =>
      subst h
      have hgf : g ≠ f := by
        intro h
        rw [h, hd] at hr
        exact FutState.noConfusion (Option.some.injEq _ _ ▸ hr)
      show (s.futures.set g (.done o'))[f]? = some (.done o)
      rw [stateOf_set_ne _ hgf]
      exact hd
  | clear _ g o' hdg h => subst h; exact hd
  | poll => exact hd

theorem steps_preserve_done {s s' : AppState} {f : Nat} {o : Outcome}
    (hsteps : Steps s s') :
    Reach s → s.stateOf f = some (.done o) → s'.stateOf f = some (.done o) := by
  induction hsteps using Relation.ReflTransGen.head_induction_on with
  | refl => exact fun _ hd => hd
  | head hstep hrest ih =>
      intro hr hd
      exact ih (Reach.step hr hstep)
        (step_preserves_done (reach_inv hr) hstep hd)

theorem reach_st1 : Reach st1 :=
  Reach.step (Reach.init true) (Step.submit _ _ rfl)

theorem reach_st2 : Reach st2 :=
  Reach.step reach_st1 (Step.start _ _ rfl)

theorem reach_st3 : Reach st3 :=
  Reach.step reach_st2 (Step.finish _ _ 0 (.ok "r1") rfl rfl)

theorem reach_st4 : Reach st4 :=
  Reach.step reach_st3 (Step.submit _ _ rfl)

theorem reach_st5 : Reach st5 :=
  Reach.step reach_st4 (Step.start _ _ rfl)

theorem pollStatus_eq (n : Nat) (s : AppState) :
    pollStatus n s = (s, List.replicate n (statusPayload s)) := by
  induction n with
  | zero => rfl
  | succ k ih => simp [pollStatus, statusStep, ih, List.replicate_succ]

/-! ### Claims -/

/-- C1: in every reachable state at most one execution of `run_model` is in
flight on the single worker, and a `_submit_model` call made while the
stored future is neither absent nor done returns that same future and
changes nothing (in particular it dispatches no second execution). -/
theorem single_flight_submit :
    (∀ s : AppState, Reach s → runningCount s ≤ 1) ∧
    (∀ (s : AppState) (f : Nat), s.slot = some f →
      (∃ fs, s.stateOf f = some fs ∧ futDone fs = false) →
      submitOrGet s = (s, f)) := by
  constructor
  · intro s hr
    induction hr with
    | init m => simp [runningCount, initState]
    | step _ hstep ih => exact runningCount_step hstep ih
  · intro s f hsl hact
    obtain ⟨fs, hfs, hnd⟩ := hact
    simp [submitOrGet, hsl, hfs, hnd]

/-- Witness for C1 at the reachable state `st1`, whose slot holds the
pending future 0. -/
theorem single_flight_submit_witness :
    runningCount st1 ≤ 1 ∧ submitOrGet st1 = (st1, 0) :=
  ⟨single_flight_submit.1 st1 reach_st1,
   single_flight_submit.2 st1 0 rfl ⟨.pending, rfl, rfl⟩⟩

/-- C2: for every argument, `create_app(config)` reads the local name `app`
in the decorator line before `app` is assigned, so the call raises
`UnboundLocalError` instead of returning, and the module-level
`app = create_app()` fails at import time with the same error. -/
theorem create_app_unbound_local :
    (∀ config, createApp config = .error (.unboundLocal "app")) ∧
    moduleLevelApp = .error (.unboundLocal "app") :=
  ⟨fun _ => rfl, rfl⟩

/-- C3 counterexample: in the reachable state `st3` the slot holds the
completed future 0, yet `_submit_model` does not return it unchanged: it
dispatches a fresh future 1 to the executor queue and returns that one. -/
theorem submit_on_done_resubmits_cex :
    Reach st3 ∧ st3.slot = some 0 ∧
    st3.stateOf 0 = some (.done (.ok "r1")) ∧
    submitOrGet st3 ≠ (st3, 0) ∧
    (submitOrGet st3).2 = 1 ∧
    (submitOrGet st3).1.queue = [1] ∧
    (submitOrGet st3).1.stateOf 1 = some .pending :=
  ⟨reach_st3, rfl, rfl, by decide, rfl, rfl, rfl⟩

/-- C3 amended: when the slot holds a completed handle (and a model is
configured), `_submit_model` starts a new execution: it allocates a fresh
future, submits it to the executor, stores it in the slot and returns it;
the completed handle is no longer the one in the slot. -/
theorem submit_on_done_amended (s : AppState) (f : Nat) (o : Outcome)
    (hsl : s.slot = some f) (hd : s.stateOf f = some (.done o))
    (hm : s.model = true) :
    (submitOrGet s).2 = s.futures.length ∧
    (submitOrGet s).1.slot = some s.futures.length ∧
    (submitOrGet s).1.stateOf s.futures.length = some .pending ∧
    (submitOrGet s).1.queue = s.queue ++ [s.futures.length] ∧
    f ≠ s.futures.length := by
  have hlt := stateOf_lt_length hd
  have hsub : submitOrGet s = newSubmit s := by
    simp [submitOrGet, hsl, hd, futDone]
  rw [hsub]
  unfold newSubmit
  rw [hm]
  refine ⟨rfl, rfl, ?_, rfl, Nat.ne_of_lt hlt⟩
  exact List.getElem?_concat_length _ _

/-- Witness for the amended C3 at the reachable state `st3`. -/
theorem submit_on_done_amended_witness :
    (submitOrGet st3).2 = 1 ∧
    (submitOrGet st3).1.slot = some 1 ∧
    (submitOrGet st3).1.stateOf 1 = some .pending ∧
    (submitOrGet st3).1.queue = [] ++ [1] ∧
    0 ≠ 1 := by
  have h := submit_on_done_amended st3 0 (.ok "r1") rfl rfl rfl
  exact h

/-- C4 counterexample: in the reachable state `st1` the slot holds the
pending future 0 (submitted but not yet started), and `/status` answers
`("unknown", null)`, not `("running", null)` as the claim states. -/
theorem status_pending_unknown_cex :
    Reach st1 ∧ st1.slot = some 0 ∧ st1.stateOf 0 = some .pending ∧
    statusPayload st1 = ("unknown", none) ∧
    statusPayload st1 ≠ ("running", none) :=
  ⟨reach_st1, rfl, rfl, rfl, by decide⟩

/-- C4 amended: `/status` maps an empty slot to `("idle", null)`, a running
handle to `("running", null)`, a handle completed with result `r` to
`("done", r)`, a handle completed with error message `m` to
`("done", "error: " ++ m)`, and a pending handle to the fallback
`("unknown", null)`. -/
theorem status_mapping_amended (s : AppState) :
    statusPayload s = claimedStatus s := by
  cases hsl : s.slot with
  | none => simp [statusPayload, claimedStatus, hsl]
  | some f =>
      cases h : s.stateOf f with
      | none => simp [statusPayload, claimedStatus, hsl, h]
      | some fs =>
          cases fs with
          | pending => simp [statusPayload, claimedStatus, hsl, h]
          | running => simp [statusPayload, claimedStatus, hsl, h]
          | done o =>
              cases o <;> simp [statusPayload, claimedStatus, hsl, h]

/-- C5: when `home` observes a completed handle, it renders the captured
outcome, clears the slot, leaves every future untouched, the cleared slot
reads back as idle, and a subsequent `_submit_model` (with a model
configured) dispatches a genuinely new execution: a fresh future id,
pending, appended to the executor queue. -/
theorem home_consumes_and_clears (s : AppState) (f : Nat) (o : Outcome)
    (hd : s.stateOf f = some (.done o)) :
    (homeAfterSubmit s f).2 = homeRender (.done o) ∧
    (homeAfterSubmit s f).1.slot = none ∧
    (homeAfterSubmit s f).1.futures = s.futures ∧
    statusPayload (homeAfterSubmit s f).1 = ("idle", none) ∧
    (s.model = true →
      (submitOrGet (homeAfterSubmit s f).1).2 = s.futures.length ∧
      (submitOrGet (homeAfterSubmit s f).1).1.stateOf s.futures.length
        = some .pending ∧
      (submitOrGet (homeAfterSubmit s f).1).1.queue
        = s.queue ++ [s.futures.length]) := by
  unfold homeAfterSubmit
  rw [hd]
  refine ⟨rfl, rfl, rfl, rfl, ?_⟩
  intro hm
  unfold submitOrGet newSubmit
  rw [hm]
  simp only
  refine ⟨rfl, ?_, rfl⟩
  exact List.getElem?_concat_length _ _

/-- Witness for C5 at the reachable state `st3`. -/
theorem home_consumes_and_clears_witness :
    (homeAfterSubmit st3 0).2 = homeRender (.done (.ok "r1")) ∧
    (homeAfterSubmit st3 0).1.slot = none ∧
    (homeAfterSubmit st3 0).1.futures = st3.futures ∧
    statusPayload (homeAfterSubmit st3 0).1 = ("idle", none) ∧
    (st3.model = true →
      (submitOrGet (homeAfterSubmit st3 0).1).2 = st3.futures.length ∧
      (submitOrGet (homeAfterSubmit st3 0).1).1.stateOf st3.futures.length
        = some .pending ∧
      (submitOrGet (homeAfterSubmit st3 0).1).1.queue
        = st3.queue ++ [st3.futures.length]) :=
  home_consumes_and_clears st3 0 (.ok "r1") rfl

/-- C6: when the Trainable fails with message `m`, the future completes
with the error outcome; `home` surfaces it as the plain string
`"Model error: " ++ m` and `/status` as `("done", "error: " ++ m)` — data,
not a thrown error. -/
theorem trainable_error_surfaced (s : AppState) (f : Nat) (m : String)
    (hr : s.stateOf f = some .running) (hsl : s.slot = some f) :
    (workerFinish s f (.err m)).stateOf f = some (.done (.err m)) ∧
    homeRender (.done (.err m)) = "Model error: " ++ m ∧
    statusPayload (workerFinish s f (.err m))
      = ("done", some ("error: " ++ m)) ∧
    (homeAfterSubmit (workerFinish s f (.err m)) f).2
      = "Model error: " ++ m := by
  have hlt := stateOf_lt_length hr
  have hset : (workerFinish s f (.err m)).stateOf f
      = some (.done (.err m)) := by
    show (s.futures.set f (.done (.err m)))[f]? = some (.done (.err m))
    simp [List.getElem?_set_self hlt]
  refine ⟨hset, rfl, ?_, ?_⟩
  · simp [statusPayload, workerFinish, AppState.stateOf, hsl,
      List.getElem?_set_self hlt]
  · simp [homeAfterSubmit, hset, homeRender]

/-- Witness for C6 at the reachable state `st2`, whose future 0 is
running. -/
theorem trainable_error_surfaced_witness :
    (workerFinish st2 0 (.err "bad data")).stateOf 0
      = some (.done (.err "bad data")) ∧
    homeRender (.done (.err "bad data")) = "Model error: " ++ "bad data" ∧
    statusPayload (workerFinish st2 0 (.err "bad data"))
      = ("done", some ("error: " ++ "bad data")) ∧
    (homeAfterSubmit (workerFinish st2 0 (.err "bad data")) 0).2
      = "Model error: " ++ "bad data" :=
  trainable_error_surfaced st2 0 "bad data" rfl rfl

/-- C7: with no model configured, nothing is ever on the executor queue in
any reachable state, and `_submit_model` yields a future that is already
completed with result `"No model available"`, still dispatching nothing. -/
theorem no_model_done_handle (s : AppState) (hm : s.model = false)
    (hr : Reach s) :
    s.queue = [] ∧
    (submitOrGet s).1.stateOf (submitOrGet s).2
      = some (.done (.ok "No model available")) ∧
    (submitOrGet s).1.queue = [] := by
  obtain ⟨hq, hnd, hslot, hnm⟩ := reach_inv hr
  obtain ⟨hqe, hall⟩ := hnm hm
  have hsub : submitOrGet s = newSubmit s := by
    cases hsl : s.slot with
    | none => simp [submitOrGet, hsl]
    | some f =>
        have hlt := hslot f hsl
        have hval : s.stateOf f = some s.futures[f] :=
          List.getElem?_eq_some.mpr ⟨hlt, rfl⟩
        have hdone : s.futures[f] = .done (.ok "No model available") :=
          hall _ (List.getElem_mem hlt)
        simp [submitOrGet, hsl, hval, hdone, futDone]
  rw [hsub]
  unfold newSubmit
  rw [hm]
  refine ⟨hqe, ?_, hqe⟩
  exact List.getElem?_concat_length _ _

/-- Witness for C7 at the initial state of an app whose model import
failed. -/
theorem no_model_done_handle_witness :
    (initState false).queue = [] ∧
    (submitOrGet (initState false)).1.stateOf (submitOrGet (initState false)).2
      = some (.done (.ok "No model available")) ∧
    (submitOrGet (initState false)).1.queue = [] :=
  no_model_done_handle (initState false) rfl (Reach.init false)

/-- C8: `/status` never modifies the state: polled `n` times in a row after
a job completed it returns the identical payload `n` times and leaves the
slot (and everything else) unchanged — it neither clears the slot nor
submits work. -/
theorem status_pure_poll (n : Nat) (s : AppState) (f : Nat) (o : Outcome)
    (hsl : s.slot = some f) (_hd : s.stateOf f = some (.done o)) :
    pollStatus n s = (s, List.replicate n (statusPayload s)) ∧
    (pollStatus n s).1 = s ∧
    (pollStatus n s).1.slot = some f := by
  have h := pollStatus_eq n s
  exact ⟨h, by rw [h], by rw [h]; exact hsl⟩

/-- Witness for C8: three polls of the completed state `st3`. -/
theorem status_pure_poll_witness :
    pollStatus 3 st3 = (st3, List.replicate 3 (statusPayload st3)) ∧
    (pollStatus 3 st3).1 = st3 ∧
    (pollStatus 3 st3).1.slot = some 0 :=
  status_pure_poll 3 st3 0 (.ok "r1") rfl rfl

/-- C9: a completed outcome is immutable: from any reachable state, after
any further sequence of atomic actions of the system, a future that was
done with outcome `o` still reads as done with outcome `o`. -/
theorem done_outcome_immutable (s s' : AppState) (f : Nat) (o : Outcome)
    (hr : Reach s) (hsteps : Steps s s')
    (hd : s.stateOf f = some (.done o)) :
    s'.stateOf f = some (.done o) :=
  steps_preserve_done hsteps hr hd

/-- Witness for C9: the completed future 0 of `st3` still holds its outcome
after the submit step that leads to `st4`. -/
theorem done_outcome_immutable_witness :
    st4.stateOf 0 = some (.done (.ok "r1")) :=
  done_outcome_immutable st3 st4 0 (.ok "r1") reach_st3
    (Relation.ReflTransGen.single (Step.submit _ _ rfl)) rfl

/-- C10: in the reachable state `st5` the slot holds the running future 1,
while this request's future 0 is done; the clearing step of `home` sets the
slot to `None` unconditionally, discarding the running future 1 — and this
clear is a legal atomic action of the system. -/
theorem home_clear_discards_other_handle :
    Reach st5 ∧
    st5.slot = some 1 ∧
    st5.stateOf 0 = some (.done (.ok "r1")) ∧
    st5.stateOf 1 = some .running ∧
    (homeAfterSubmit st5 0).1.slot = none ∧
    (homeAfterSubmit st5 0).2 = "r1" ∧
    Step st5 (homeAfterSubmit st5 0).1 :=
  ⟨reach_st5, rfl, rfl, rfl, rfl, rfl,
   Step.clear _ _ 0 (.ok "r1") rfl rfl⟩

end WineApp
